import Mathlib

/-!
EPaxos per-instance consensus state machine, shallowly embedded from the
repository's `epaxos/instance.go`.

The embedding keeps the structure of the Go source:

* `InstanceState` mirrors the `instanceState` enumeration.
* `Instance` mirrors the `instance` struct.  The Go field
  `deps map[pb.Dependency]struct{}` is modelled as `Option (Finset Dep)`:
  `Option.none` is the nil map that `newInstance` leaves behind (reading the
  length of a nil map yields 0, iterating it yields nothing, but writing to it
  is a runtime panic), and `Option.some s` is an allocated map holding the
  set `s`.
* Handlers that can panic (an `assertState` failure or a write to a nil map)
  return `Option (Instance × List Output)`, with `Option.none` standing for
  the panic.  Handlers emit their `broadcast`/`reply`/`prepareToExecute`
  calls as a list of `Output` values.
* The pieces of the surrounding `epaxos` replica that `instance.go` consults
  (`quorum`, `fastQuorum`, `seqAndDepsForCommand`) are not part of the
  reviewed file and are abstracted as an `epaxos` context of functions.
* The ticking timer and the execution engine live outside the reviewed file
  as well; `tickSlowPathTimer` and `executeInst` model them from the spec.
-/

namespace EPaxos

/-- A dependency, `pb.Dependency`, is the coordinate
`(replica id, instance number)` of another instance.  Replica ids, instance
numbers, sequence numbers and (opaque) commands are all modelled as `Nat`. -/
abbrev Dep := Nat × Nat

/-- The `instanceState` enumeration of `instance.go`. -/
inductive InstanceState
  | none
  | preAccepted
  | accepted
  | committed
  | executed
deriving DecidableEq, Repr

/-- The `instance` struct of `instance.go`.  `deps` is `Option.none` while the
Go map is still nil; `slowPathTimer` is `Option.some k` when the timer is
registered with `k` ticks remaining and `Option.none` when it is not set. -/
structure Instance where
  r : Nat
  i : Nat
  cmd : Nat
  seq : Nat
  deps : Option (Finset Dep)
  state : InstanceState
  preAcceptReplies : Nat
  differentReplies : Bool
  slowPathTimer : Option Nat
  acceptReplies : Nat
deriving DecidableEq

/-- Wire messages produced by the handlers (the `pb` message types that
`instance.go` constructs). -/
inductive Msg
  | preAccept (cmd : Nat) (seq : Nat) (deps : List Dep)
  | preAcceptOK
  | preAcceptReply (updatedSeqNum : Nat) (updatedDeps : List Dep)
  | accept (seq : Nat) (deps : List Dep)
  | acceptOK
  | commit (cmd : Nat) (seq : Nat) (deps : List Dep)
deriving DecidableEq, Repr

/-- Observable effects of a handler: a broadcast, a directed reply, or the
`prepareToExecute` hand-off to the executable graph. -/
inductive Output
  | broadcast (m : Msg)
  | reply (m : Msg)
  | execReady
deriving DecidableEq, Repr

/-- Inbound payload of `pb.PreAccept`. -/
structure PreAccept where
  cmd : Nat
  seq : Nat
  deps : List Dep
deriving DecidableEq, Repr

/-- Inbound payload of `pb.PreAcceptReply`. -/
structure PreAcceptReply where
  updatedSeqNum : Nat
  updatedDeps : List Dep
deriving DecidableEq, Repr

/-- Inbound payload of `pb.Accept` (no command). -/
structure Accept where
  seq : Nat
  deps : List Dep
deriving DecidableEq, Repr

/-- Inbound payload of `pb.Commit`. -/
structure Commit where
  cmd : Nat
  seq : Nat
  deps : List Dep
deriving DecidableEq, Repr

/-- Modelled from the spec: the pieces of the `epaxos` replica struct that
`instance.go` calls into and that are not part of the reviewed file.
`quorum n` / `fastQuorum n` decide whether `n` replies (the command leader
included) reach the slow/fast quorum; `seqAndDepsForCommand` returns the
maximum conflicting local sequence number together with the set of local
dependencies for a command. -/
structure epaxos where
  quorum : Nat → Bool
  fastQuorum : Nat → Bool
  seqAndDepsForCommand : Nat → Nat × Finset Dep

/-- The constant `slowPathTimout` (sic) of `instance.go`. -/
def slowPathTimout : Nat := 2

/-- `newInstance` of `instance.go`: all fields take the Go zero value, in
particular the `deps` map stays nil and the made-but-unregistered slow-path
timer is not set. -/
def newInstance (r : Nat) (i : Nat) : Instance :=
  { r := r
    i := i
    cmd := 0
    seq := 0
    deps := Option.none
    state := InstanceState.none
    preAcceptReplies := 0
    differentReplies := false
    slowPathTimer := Option.none
    acceptReplies := 0 }

/-- Length of a possibly-nil Go map (`len` of a nil map is 0). -/
def goMapLen : Option (Finset Dep) → Nat
  | Option.none => 0
  | Option.some s => s.card

/-- Insert every element of `l` into a possibly-nil Go map, one assignment per
element as the Go `for` loop does.  Assigning into a nil map is a runtime
panic, modelled by an `Option.none` result; it is reached exactly when the
list is non-empty and the map is nil. -/
def goMapInsertAll : Option (Finset Dep) → List Dep → Option (Option (Finset Dep))
  | m, [] => Option.some m
  | Option.none, _ :: _ => Option.none
  | Option.some s, l@(_ :: _) => Option.some (Option.some (s ∪ l.toFinset))

/-- Comparison used to sort dependency slices deterministically:
`(replica_id, instance_num)` lexicographic. -/
def depLe (a b : Dep) : Prop :=
  a.1 < b.1 ∨ (a.1 = b.1 ∧ a.2 ≤ b.2)

instance : DecidableRel depLe :=
  fun a b => inferInstanceAs (Decidable (a.1 < b.1 ∨ (a.1 = b.1 ∧ a.2 ≤ b.2)))

instance : IsTrans Dep depLe :=
  ⟨by
    intro a b c hab hbc
    unfold depLe at hab hbc ⊢
    rcases hab with h | ⟨h1, h2⟩ <;> rcases hbc with h' | ⟨h1', h2'⟩
    · exact Or.inl (by omega)
    · exact Or.inl (by omega)
    · exact Or.inl (by omega)
    · exact Or.inr ⟨by omega, by omega⟩⟩

instance : IsAntisymm Dep depLe :=
  ⟨by
    intro a b hab hba
    unfold depLe at hab hba
    rcases hab with h | ⟨h1, h2⟩ <;> rcases hba with h' | ⟨h1', h2'⟩ <;>
      exact Prod.ext (by omega) (by omega)⟩

instance : IsTotal Dep depLe :=
  ⟨by
    intro a b
    unfold depLe
    rcases Nat.lt_trichotomy a.1 b.1 with h | h | h
    · exact Or.inl (Or.inl h)
    · rcases Nat.le_total a.2 b.2 with h2 | h2
      · exact Or.inl (Or.inr ⟨h, h2⟩)
      · exact Or.inr (Or.inr ⟨h.symm, h2⟩)
    · exact Or.inr (Or.inl h)⟩

/-- `depSliceFromMap` of `instance.go`: emit a (possibly nil) deps map as a
deterministically sorted slice.  Iterating a nil map yields nothing. -/
def depSliceFromMap : Option (Finset Dep) → List Dep
  | Option.none => []
  | Option.some s => s.sort depLe

/-- `pb.MaxSeqNum`. -/
def MaxSeqNum (a b : Nat) : Nat :=
  if a > b then a else b

/-- `instance.depSlice`. -/
def depSlice (inst : Instance) : List Dep :=
  depSliceFromMap inst.deps

/-- `instance.instanceStateWithoutCommand`, as the `Accept` broadcast payload. -/
def acceptPayload (inst : Instance) : Msg :=
  Msg.accept inst.seq (depSlice inst)

/-- `instance.instanceState`, as the `Commit` broadcast payload. -/
def commitPayload (inst : Instance) : Msg :=
  Msg.commit inst.cmd inst.seq (depSlice inst)

/-- `transitionToAccept`: assert the state is `preAccepted` (panic otherwise),
move to `accepted` and broadcast an `Accept`. -/
def transitionToAccept (inst : Instance) : Option (Instance × List Output) :=
  if inst.state = InstanceState.preAccepted then
    Option.some ({ inst with state := InstanceState.accepted },
      [Output.broadcast (acceptPayload inst)])
  else
    Option.none

/-- `transitionToCommit`: assert the state is `preAccepted` or `accepted`
(panic otherwise), move to `committed`, broadcast a `Commit` and hand the
instance to the executable graph. -/
def transitionToCommit (inst : Instance) : Option (Instance × List Output) :=
  if inst.state = InstanceState.preAccepted ∨ inst.state = InstanceState.accepted then
    Option.some ({ inst with state := InstanceState.committed },
      [Output.broadcast (commitPayload inst), Output.execReady])
  else
    Option.none

/-- `updateInstanceState` of `instance.go`: take the new sequence number
whenever it differs, merge the new deps into the map only when the lengths
differ, and report whether anything differed.  The merge loop writes into the
instance's deps map, so it panics (`Option.none`) when that map is still nil
and the incoming list is non-empty. -/
def updateInstanceState (inst : Instance) (newSeq : Nat) (newDeps : List Dep) :
    Option (Instance × Bool) :=
  let sameSeq := inst.seq == newSeq
  let inst1 := if sameSeq then inst else { inst with seq := newSeq }
  let sameDeps := newDeps.length == goMapLen inst1.deps
  if sameDeps then
    Option.some (inst1, !(sameSeq && sameDeps))
  else
    match goMapInsertAll inst1.deps newDeps with
    | Option.none => Option.none
    | Option.some m => Option.some ({ inst1 with deps := m }, !(sameSeq && sameDeps))

/-- `fastPathAvailable`. -/
def fastPathAvailable (inst : Instance) : Bool :=
  !inst.differentReplies

/-- `onPreAccept` of `instance.go`.  Total: it never writes into a nil map
(it overwrites the deps field with the freshly computed union). -/
def onPreAccept (p : epaxos) (inst : Instance) (pa : PreAccept) : Instance × List Output :=
  if inst.state = InstanceState.none then
    let inst1 := { inst with state := InstanceState.preAccepted }
    let maxLocalSeq := (p.seqAndDepsForCommand pa.cmd).1
    let localDeps := (p.seqAndDepsForCommand pa.cmd).2
    let depsUnion := localDeps ∪ pa.deps.toFinset
    let inst2 := { inst1 with
      cmd := pa.cmd
      seq := MaxSeqNum pa.seq (maxLocalSeq + 1)
      deps := Option.some depsUnion }
    if inst2.seq = pa.seq ∧ goMapLen inst2.deps = pa.deps.length then
      (inst2, [Output.reply Msg.preAcceptOK])
    else
      (inst2, [Output.reply (Msg.preAcceptReply inst2.seq (depSliceFromMap (Option.some depsUnion)))])
  else
    (inst, [])

/-- `onEitherPreAcceptReply` of `instance.go`: arbitrate between the fast
path, the slow path, arming the slow-path timer, and waiting. -/
def onEitherPreAcceptReply (p : epaxos) (inst : Instance) : Option (Instance × List Output) :=
  let replies := inst.preAcceptReplies + 1
  let takeFastPath := !inst.differentReplies && p.fastQuorum replies
  let takeSlowPath := p.quorum replies
  if takeFastPath then
    transitionToCommit { inst with slowPathTimer := Option.none }
  else if takeSlowPath then
    if !(fastPathAvailable inst) then
      transitionToAccept { inst with slowPathTimer := Option.none }
    else if !inst.slowPathTimer.isSome then
      Option.some ({ inst with slowPathTimer := Option.some slowPathTimout }, [])
    else
      Option.some (inst, [])
  else
    Option.some (inst, [])

/-- `onPreAcceptOK` of `instance.go`. -/
def onPreAcceptOK (p : epaxos) (inst : Instance) : Option (Instance × List Output) :=
  if inst.state = InstanceState.preAccepted then
    onEitherPreAcceptReply p { inst with preAcceptReplies := inst.preAcceptReplies + 1 }
  else
    Option.some (inst, [])

/-- `onPreAcceptReply` of `instance.go`. -/
def onPreAcceptReply (p : epaxos) (inst : Instance) (m : PreAcceptReply) :
    Option (Instance × List Output) :=
  if inst.state = InstanceState.preAccepted then
    (updateInstanceState inst m.updatedSeqNum m.updatedDeps).bind (fun x =>
      onEitherPreAcceptReply p
        { x.1 with
          differentReplies := x.1.differentReplies || x.2
          preAcceptReplies := x.1.preAcceptReplies + 1 })
  else
    Option.some (inst, [])

/-- `onAccept` of `instance.go`. -/
def onAccept (inst : Instance) (a : Accept) : Option (Instance × List Output) :=
  if inst.state = InstanceState.none ∨ inst.state = InstanceState.preAccepted then
    (updateInstanceState { inst with state := InstanceState.accepted } a.seq a.deps).bind
      (fun x => Option.some (x.1, [Output.reply Msg.acceptOK]))
  else
    Option.some (inst, [])

/-- `onAcceptOK` of `instance.go`. -/
def onAcceptOK (p : epaxos) (inst : Instance) : Option (Instance × List Output) :=
  if inst.state = InstanceState.accepted then
    let inst1 := { inst with acceptReplies := inst.acceptReplies + 1 }
    if p.quorum (inst1.acceptReplies + 1) then
      transitionToCommit inst1
    else
      Option.some (inst1, [])
  else
    Option.some (inst, [])

/-- `onCommit` of `instance.go`. -/
def onCommit (inst : Instance) (c : Commit) : Option (Instance × List Output) :=
  if inst.state = InstanceState.none ∨ inst.state = InstanceState.preAccepted ∨
      inst.state = InstanceState.accepted then
    (updateInstanceState { inst with state := InstanceState.committed, cmd := c.cmd }
        c.seq c.deps).bind
      (fun x => Option.some (x.1, [Output.execReady]))
  else
    Option.some (inst, [])

/-- Modelled from the spec: one logical tick of the slow-path timer, whose
`tickingTimer` implementation is outside the reviewed file.  `tick()`
decrements every armed timer and invokes the callback of a timer whose
countdown reaches zero; the callback installed by `newInstance` runs
`transitionToAccept`, and a fired one-shot timer is no longer set. -/
def tickSlowPathTimer (inst : Instance) : Option (Instance × List Output) :=
  match inst.slowPathTimer with
  | Option.none => Option.some (inst, [])
  | Option.some k =>
      if k ≤ 1 then
        transitionToAccept { inst with slowPathTimer := Option.none }
      else
        Option.some ({ inst with slowPathTimer := Option.some (k - 1) }, [])

/-- Modelled from the spec: the execution engine (outside the reviewed file)
executes a committed instance and marks it `Executed`; already-executed
vertices are skipped. -/
def executeInst (inst : Instance) : Instance :=
  if inst.state = InstanceState.committed then
    { inst with state := InstanceState.executed }
  else
    inst

/-- One deliverable event of the per-instance machine. -/
inductive Event
  | preAccept (m : PreAccept)
  | preAcceptOK
  | preAcceptReply (m : PreAcceptReply)
  | accept (m : Accept)
  | acceptOK
  | commit (m : Commit)
  | tick
  | execute
deriving DecidableEq, Repr

/-- Dispatch one event to the instance, as the replica's message routing
does; `Option.none` models a panic inside the handler. -/
def step (p : epaxos) : Event → Instance → Option (Instance × List Output)
  | Event.preAccept m, inst => Option.some (onPreAccept p inst m)
  | Event.preAcceptOK, inst => onPreAcceptOK p inst
  | Event.preAcceptReply m, inst => onPreAcceptReply p inst m
  | Event.accept m, inst => onAccept inst m
  | Event.acceptOK, inst => onAcceptOK p inst
  | Event.commit m, inst => onCommit inst m
  | Event.tick, inst => tickSlowPathTimer inst
  | Event.execute, inst => Option.some (executeInst inst, [])

/-- Run a sequence of events, stopping at the first panic. -/
def run (p : epaxos) : List Event → Instance → Option Instance
  | [], inst => Option.some inst
  | e :: es, inst => (step p e inst).bind (fun x => run p es x.1)

/-- Numeric rank of a state in the order
None < PreAccepted < Accepted < Committed < Executed. -/
def stateRank : InstanceState → Nat
  | InstanceState.none => 0
  | InstanceState.preAccepted => 1
  | InstanceState.accepted => 2
  | InstanceState.committed => 3
  | InstanceState.executed => 4

/-- The transitions the spec declares legal, with the two transitions that
only a delivered `Accept` or `Commit` message may take tagged by their
event. -/
def legalTransition (e : Event) (s s' : InstanceState) : Prop :=
  s = s' ∨
  (s = InstanceState.none ∧ s' = InstanceState.preAccepted) ∨
  (s = InstanceState.preAccepted ∧ s' = InstanceState.accepted) ∨
  ((s = InstanceState.none ∨ s = InstanceState.preAccepted) ∧
    s' = InstanceState.accepted ∧ ∃ m, e = Event.accept m) ∨
  ((s = InstanceState.preAccepted ∨ s = InstanceState.accepted) ∧
    s' = InstanceState.committed) ∨
  ((s = InstanceState.none ∨ s = InstanceState.preAccepted ∨
      s = InstanceState.accepted) ∧
    s' = InstanceState.committed ∧ ∃ m, e = Event.commit m) ∨
  (s = InstanceState.committed ∧ s' = InstanceState.executed)

/-- An event that is a delivered protocol message (not a tick, not the
execution engine). -/
def isMessage (e : Event) : Prop :=
  e ≠ Event.tick ∧ e ≠ Event.execute

/-- Events that reach a command-leader instance: replies routed back to the
leader, and logical ticks. -/
def isLeaderEvent : Event → Prop
  | Event.preAcceptOK => True
  | Event.preAcceptReply _ => True
  | Event.acceptOK => True
  | Event.tick => True
  | _ => False

/-- `ExecutesBefore` of `instance.go`: order two instances of one strongly
connected component by sequence number, breaking ties by replica id. -/
def ExecutesBefore (a b : Instance) : Bool :=
  if a.seq ≠ b.seq then
    a.seq < b.seq
  else
    a.r < b.r

/-- A concrete replica context used by the witnesses: N = 3, slow quorum 2,
fast quorum 3, no conflicting local instances. -/
def pDemo : epaxos :=
  { quorum := fun n => decide (2 ≤ n)
    fastQuorum := fun n => decide (3 ≤ n)
    seqAndDepsForCommand := fun _ => (0, ∅) }

/-- A concrete replica context whose local scan finds a conflict: maximum
conflicting sequence number 4 and one local dependency. -/
def pDemo2 : epaxos :=
  { pDemo with seqAndDepsForCommand := fun _ => (4, {(0, 1)}) }

/-- A concrete dependency set used by the witnesses. -/
def depsDemo : Finset Dep := {(1, 1)}

/-- A concrete command-leader instance, in `PreAccepted` with two peer
replies already tallied, used by the witnesses. -/
def instLeader : Instance :=
  { newInstance 0 1 with
      state := InstanceState.preAccepted
      deps := Option.some depsDemo
      seq := 3
      cmd := 9
      preAcceptReplies := 2 }

/-- A concrete command-leader instance one reply short of the fast quorum of
`pDemo`: two replies counting the leader reach the slow quorum only. -/
def instSlow : Instance :=
  { instLeader with preAcceptReplies := 1 }

/-- The instance `instSlow` right after arming its slow-path timer. -/
def instArmed : Instance :=
  { instSlow with slowPathTimer := Option.some slowPathTimout }

/-- A concrete dependency set used by the `updateInstanceState` witness. -/
def depsDemo9 : Finset Dep := {(0, 1)}

/-- A concrete instance with an allocated deps map, used by the
`updateInstanceState` witness. -/
def instUpd : Instance :=
  { newInstance 0 1 with
      seq := 5
      deps := Option.some depsDemo9 }

/-- A concrete committed instance used by the frozen-after-commit witness. -/
def instCommitted : Instance :=
  { instLeader with state := InstanceState.committed }

/-- The instance `instLeader` after one more `PreAcceptOK` takes the fast
path: reply tallied, timer cancelled, committed. -/
def instFastDone : Instance :=
  { instLeader with
      preAcceptReplies := 3
      slowPathTimer := Option.none
      state := InstanceState.committed }

/-- The outputs of the fast path taken from `instLeader`. -/
def outsFastDone : List Output :=
  [Output.broadcast (Msg.commit instLeader.cmd instLeader.seq (depSlice instLeader)),
    Output.execReady]

/-- A concrete `PreAccept` message used by the witnesses: its seq 2 is below
the local maximum 4 of `pDemo2` and it misses the local dependency `(0,1)`,
so the handler must reply with updated information. -/
def paDemo : PreAccept :=
  { cmd := 9
    seq := 2
    deps := [(2, 2)] }

/-- A concrete `PreAccept` message used by the witnesses: its seq 7 clears
the local maximum 4 of `pDemo2` and its deps contain the local dependency
`(0,1)`, so the handler must reply `PreAcceptOK`. -/
def paDemoOK : PreAccept :=
  { cmd := 9
    seq := 7
    deps := [(0, 1), (2, 2)] }

/-- `pb.MaxSeqNum` is the maximum. -/
lemma MaxSeqNum_eq_max (a b : Nat) : MaxSeqNum a b = max a b := by
  unfold MaxSeqNum
  split <;> omega

/-- Inserting a whole list into an allocated Go map unions in its elements. -/
lemma goMapInsertAll_some (s : Finset Dep) (l : List Dep) :
    goMapInsertAll (Option.some s) l = Option.some (Option.some (s ∪ l.toFinset)) := by
  cases l with
  | nil => simp [goMapInsertAll]
  | cons d ds => rfl

/-- Exact description of `updateInstanceState` when the deps map is
allocated: the sequence number is overwritten with `newSeq`, the deps are
merged only when the incoming length differs from the map's size, and the
returned flag records whether either differed. -/
lemma updateInstanceState_char (inst : Instance) (s : Finset Dep) (newSeq : Nat)
    (newDeps : List Dep) (h : inst.deps = Option.some s) :
    updateInstanceState inst newSeq newDeps =
      Option.some
        ({ inst with
            seq := newSeq
            deps := Option.some (if newDeps.length = s.card then s else s ∪ newDeps.toFinset) },
          decide (newSeq ≠ inst.seq) || decide (newDeps.length ≠ s.card)) := by
  obtain ⟨r, i, c, sq, dp, st, par, dr, spt, ar⟩ := inst
  have h' : dp = Option.some s := h
  subst h'
  by_cases hss : sq = newSeq
  · by_cases hsd : newDeps.length = s.card
    · simp [updateInstanceState, goMapLen, goMapInsertAll_some, hss, hsd]
    · simp [updateInstanceState, goMapLen, goMapInsertAll_some, hss, hsd, Ne.symm hsd]
  · by_cases hsd : newDeps.length = s.card
    · simp [updateInstanceState, goMapLen, goMapInsertAll_some, hss, hsd, Ne.symm hss]
    · simp [updateInstanceState, goMapLen, goMapInsertAll_some, hss, hsd, Ne.symm hss,
        Ne.symm hsd]

/-- Case analysis of `onEitherPreAcceptReply` in state `PreAccepted`: it
waits, arms the slow-path timer, takes the slow path, or takes the fast
path; it never panics, and it never touches `(cmd, seq, deps)`. -/
lemma onEitherPreAcceptReply_cases (p : epaxos) (inst : Instance)
    (hs : inst.state = InstanceState.preAccepted) :
    onEitherPreAcceptReply p inst = Option.some (inst, []) ∨
    onEitherPreAcceptReply p inst =
      Option.some ({ inst with slowPathTimer := Option.some slowPathTimout }, []) ∨
    onEitherPreAcceptReply p inst =
      Option.some ({ inst with slowPathTimer := Option.none, state := InstanceState.accepted },
        [Output.broadcast (Msg.accept inst.seq (depSlice inst))]) ∨
    onEitherPreAcceptReply p inst =
      Option.some ({ inst with slowPathTimer := Option.none, state := InstanceState.committed },
        [Output.broadcast (Msg.commit inst.cmd inst.seq (depSlice inst)), Output.execReady]) := by
  simp only [onEitherPreAcceptReply]
  cases hf : (!inst.differentReplies && p.fastQuorum (inst.preAcceptReplies + 1)) with
  | true =>
      right; right; right
      simp [hf, transitionToCommit, commitPayload, depSlice, hs]
  | false =>
      cases hq : p.quorum (inst.preAcceptReplies + 1) with
      | false => left; simp [hf, hq]
      | true =>
          cases hda : inst.differentReplies with
          | true =>
              right; right; left
              simp [hf, hq, fastPathAvailable, hda, transitionToAccept, acceptPayload,
                depSlice, hs]
          | false =>
              have hfq : p.fastQuorum (inst.preAcceptReplies + 1) = false := by
                simpa [hda] using hf
              cases ht : inst.slowPathTimer with
              | none =>
                  right; left
                  simp [hq, hfq, fastPathAvailable, hda, ht]
              | some k =>
                  left
                  simp [hq, hfq, fastPathAvailable, hda, ht]

/-- C8: `ExecutesBefore a b` holds exactly when `(seq, replica_id)` of `a` is
lexicographically below that of `b`: `seq a < seq b`, or `seq a = seq b` and
`replica_id a < replica_id b`.  This is the order in which members of one
strongly connected component are executed. -/
theorem executesBefore_lex_order (a b : Instance) :
    ExecutesBefore a b = true ↔ (a.seq < b.seq ∨ (a.seq = b.seq ∧ a.r < b.r)) := by
  unfold ExecutesBefore
  by_cases h : a.seq = b.seq <;> simp [h]

/-- C9: `updateInstanceState(newSeq, newDeps)` on an instance whose deps map
is allocated always overwrites `seq` with `newSeq` — including when `newSeq`
is strictly smaller, so `seq` can decrease — and leaves it unchanged when
they are equal; the deps map is left entirely unmerged whenever the incoming
list's length equals the map's size, even if the two sets differ in
membership, and otherwise becomes `deps ∪ newDeps`; the returned flag is
`true` iff the seq differed or the lengths differed. -/
theorem updateInstanceState_behavior (inst : Instance) (s : Finset Dep) (newSeq : Nat)
    (newDeps : List Dep) (h : inst.deps = Option.some s) :
    updateInstanceState inst newSeq newDeps =
      Option.some
        ({ inst with
            seq := newSeq
            deps := Option.some (if newDeps.length = s.card then s else s ∪ newDeps.toFinset) },
          decide (newSeq ≠ inst.seq) || decide (newDeps.length ≠ s.card)) :=
  updateInstanceState_char inst s newSeq newDeps h

/-- Witness for C9 at a concrete input: the stored seq 5 decreases to 2, and
the deps map keeps `{(0,1)}` untouched although the incoming list `[(9,9)]`
has the same length but different membership; the call reports a change. -/
theorem updateInstanceState_behavior_witness :
    updateInstanceState instUpd 2 [(9, 9)] =
      Option.some ({ instUpd with seq := 2, deps := Option.some depsDemo9 }, true) := by
  have h := updateInstanceState_behavior instUpd depsDemo9 2 [(9, 9)] rfl
  simpa [depsDemo9, instUpd, newInstance] using h

/-- C10: delivering an `Accept` or a `Commit` whose deps list is non-empty to
a lazily created instance still in state `None` reaches the insertion into
the deps map that `newInstance` never initialized; writing into the nil map
is a runtime panic, so the handlers are not total on the states the spec
declares them handled in. -/
theorem uninitialized_deps_panic :
    (newInstance 0 1).state = InstanceState.none ∧
    (newInstance 0 1).deps = Option.none ∧
    onAccept (newInstance 0 1) { seq := 5, deps := [(0, 2)] } = Option.none ∧
    onCommit (newInstance 0 1) { cmd := 7, seq := 5, deps := [(0, 2)] } = Option.none := by
  refine ⟨rfl, rfl, ?_, ?_⟩ <;> rfl

/-- C4: once an instance is `Committed`, every delivered protocol message
(PreAccept, PreAcceptOK, PreAcceptReply, Accept, AcceptOK, or a duplicate
Commit) is ignored: the instance — in particular `(seq, deps, command)` — is
unchanged and nothing is emitted. -/
theorem frozen_after_commit (p : epaxos) (e : Event) (inst : Instance)
    (hc : inst.state = InstanceState.committed) (hm : isMessage e) :
    step p e inst = Option.some (inst, []) := by
  cases e <;>
    simp_all [step, isMessage, onPreAccept, onPreAcceptOK, onPreAcceptReply, onAccept,
      onAcceptOK, onCommit]

/-- Witness for C4: a duplicate `PreAcceptOK` delivered to a concrete
committed instance leaves it unchanged. -/
theorem frozen_after_commit_witness :
    step pDemo Event.preAcceptOK instCommitted = Option.some (instCommitted, []) :=
  frozen_after_commit pDemo Event.preAcceptOK instCommitted rfl ⟨by decide, by decide⟩

/-- C2: `onPreAccept` acts only in state `None` — in any other state the
instance is unchanged and nothing is sent; when it acts, the instance moves
to `PreAccepted` with `command = msg.command`,
`seq = max(msg.seq, maxLocalSeq + 1)` and `deps = localDeps ∪ msg.deps`,
where `(maxLocalSeq, localDeps)` is the local scan's answer for the
message's command. -/
theorem onPreAccept_behavior (p : epaxos) (inst : Instance) (pa : PreAccept) :
    (inst.state ≠ InstanceState.none → onPreAccept p inst pa = (inst, [])) ∧
    (inst.state = InstanceState.none →
      (onPreAccept p inst pa).1.state = InstanceState.preAccepted ∧
      (onPreAccept p inst pa).1.cmd = pa.cmd ∧
      (onPreAccept p inst pa).1.seq = max pa.seq ((p.seqAndDepsForCommand pa.cmd).1 + 1) ∧
      (onPreAccept p inst pa).1.deps =
        Option.some ((p.seqAndDepsForCommand pa.cmd).2 ∪ pa.deps.toFinset)) := by
  constructor
  · intro hns
    simp [onPreAccept, hns]
  · intro hs
    simp only [onPreAccept, hs, if_true]
    split <;> simp [MaxSeqNum_eq_max]

/-- Witness for C2 at a concrete input: a `PreAccept` with seq 2 delivered
into `pDemo2`, whose local scan answers `(4, {(0,1)})`. -/
theorem onPreAccept_behavior_witness :
    (onPreAccept pDemo2 (newInstance 1 1) paDemo).1.state = InstanceState.preAccepted ∧
    (onPreAccept pDemo2 (newInstance 1 1) paDemo).1.cmd = paDemo.cmd ∧
    (onPreAccept pDemo2 (newInstance 1 1) paDemo).1.seq =
      max paDemo.seq ((pDemo2.seqAndDepsForCommand paDemo.cmd).1 + 1) ∧
    (onPreAccept pDemo2 (newInstance 1 1) paDemo).1.deps =
      Option.some ((pDemo2.seqAndDepsForCommand paDemo.cmd).2 ∪ paDemo.deps.toFinset) :=
  (onPreAccept_behavior pDemo2 (newInstance 1 1) paDemo).2 rfl

/-- The size of the union of the local deps with the deps of a
duplicate-free incoming list equals the list's length exactly when the local
deps are contained in the incoming ones. -/
lemma union_card_eq_length_iff (localDeps : Finset Dep) (l : List Dep) (hnd : l.Nodup) :
    (localDeps ∪ l.toFinset).card = l.length ↔ localDeps ⊆ l.toFinset := by
  have hlen : l.toFinset.card = l.length := List.toFinset_card_of_nodup hnd
  constructor
  · intro hcard
    have hsub : l.toFinset ⊆ localDeps ∪ l.toFinset := Finset.subset_union_right
    have heq : l.toFinset = localDeps ∪ l.toFinset :=
      Finset.eq_of_subset_of_card_le hsub (by omega)
    intro x hx
    have hx2 : x ∈ localDeps ∪ l.toFinset := Finset.mem_union_left _ hx
    rwa [← heq] at hx2
  · intro hsub
    rw [Finset.union_eq_right.mpr hsub, hlen]

/-- `MaxSeqNum a b` collapses to its first argument exactly when the second
does not exceed it. -/
lemma MaxSeqNum_eq_left_iff (a b : Nat) : MaxSeqNum a b = a ↔ b ≤ a := by
  rw [MaxSeqNum_eq_max]
  omega

/-- C5: after `onPreAccept` merges, it replies `PreAcceptOK` exactly when
the merged seq equals the message's seq and the merged deps size equals the
message's deps length, and otherwise replies `PreAcceptReply` carrying the
merged seq and deps; for a duplicate-free incoming deps list this condition
is equivalent to `localDeps ⊆ msg.deps ∧ msg.seq ≥ maxLocalSeq + 1`. -/
theorem preAcceptOK_reply_condition (p : epaxos) (inst : Instance) (pa : PreAccept)
    (hs : inst.state = InstanceState.none) (hnd : pa.deps.Nodup) :
    ((onPreAccept p inst pa).2 = [Output.reply Msg.preAcceptOK] ↔
      ((onPreAccept p inst pa).1.seq = pa.seq ∧
        goMapLen (onPreAccept p inst pa).1.deps = pa.deps.length)) ∧
    (¬ ((onPreAccept p inst pa).1.seq = pa.seq ∧
        goMapLen (onPreAccept p inst pa).1.deps = pa.deps.length) →
      (onPreAccept p inst pa).2 =
        [Output.reply (Msg.preAcceptReply (onPreAccept p inst pa).1.seq
          (depSliceFromMap (onPreAccept p inst pa).1.deps))]) ∧
    (((onPreAccept p inst pa).1.seq = pa.seq ∧
        goMapLen (onPreAccept p inst pa).1.deps = pa.deps.length) ↔
      ((p.seqAndDepsForCommand pa.cmd).2 ⊆ pa.deps.toFinset ∧
        (p.seqAndDepsForCommand pa.cmd).1 + 1 ≤ pa.seq)) := by
  refine ⟨?_, ?_, ?_⟩
  · simp only [onPreAccept, hs, if_true]
    split
    · simp_all
    · simp_all
  · simp only [onPreAccept, hs, if_true]
    split
    · rename_i hcond
      intro hnc
      exfalso
      apply hnc
      simpa using hcond
    · intro hnc
      simp
  · simp only [onPreAccept, hs, if_true]
    split <;>
      · simp only [goMapLen]
        rw [MaxSeqNum_eq_left_iff, union_card_eq_length_iff _ _ hnd, and_comm]

/-- Witness for C5 at two concrete inputs: `paDemoOK` (seq 7, deps carrying
the local dependency) earns `PreAcceptOK`, exhibited through the clean
predicate, under the context `pDemo2` whose local scan answers
`(4, {(0,1)})`. -/
theorem preAcceptOK_reply_condition_witness :
    (onPreAccept pDemo2 (newInstance 1 1) paDemoOK).2 = [Output.reply Msg.preAcceptOK] := by
  have h := preAcceptOK_reply_condition pDemo2 (newInstance 1 1) paDemoOK rfl (by decide)
  exact h.1.mpr (h.2.2.mpr ⟨by decide, by decide⟩)

/-- C1: on the command leader in `PreAccepted`, with
`replies = preAcceptReplies + 1` counting the leader itself: if no reply so
far carried new information and the fast quorum is reached, the slow-path
timer is cancelled, the instance transitions to `Committed` and broadcasts
`Commit` — the fast path, which is checked first and so takes precedence;
otherwise, if the slow quorum is reached and some reply did carry new
information, the slow-path timer is cancelled, the instance transitions to
`Accepted` and broadcasts `Accept`, all within the same event. -/
theorem fast_slow_path_dispatch (p : epaxos) (inst : Instance)
    (hs : inst.state = InstanceState.preAccepted) :
    (inst.differentReplies = false → p.fastQuorum (inst.preAcceptReplies + 1) = true →
      onEitherPreAcceptReply p inst =
        Option.some
          ({ inst with slowPathTimer := Option.none, state := InstanceState.committed },
            [Output.broadcast (Msg.commit inst.cmd inst.seq (depSlice inst)),
              Output.execReady])) ∧
    (inst.differentReplies = true → p.quorum (inst.preAcceptReplies + 1) = true →
      onEitherPreAcceptReply p inst =
        Option.some
          ({ inst with slowPathTimer := Option.none, state := InstanceState.accepted },
            [Output.broadcast (Msg.accept inst.seq (depSlice inst))])) := by
  constructor
  · intro hd hfq
    simp [onEitherPreAcceptReply, hd, hfq, transitionToCommit, commitPayload, depSlice, hs]
  · intro hd hq
    simp [onEitherPreAcceptReply, hd, hq, fastPathAvailable, transitionToAccept,
      acceptPayload, depSlice, hs]

/-- Witness for C1: `instLeader` has tallied two peer replies, none
different, so with the third (itself) it reaches `pDemo`'s fast quorum and
commits. -/
theorem fast_slow_path_dispatch_witness :
    onEitherPreAcceptReply pDemo instLeader =
      Option.some
        ({ instLeader with slowPathTimer := Option.none, state := InstanceState.committed },
          [Output.broadcast (Msg.commit instLeader.cmd instLeader.seq (depSlice instLeader)),
            Output.execReady]) :=
  (fast_slow_path_dispatch pDemo instLeader rfl).1 rfl (by decide)

/-- C6: when slow-quorum-many replies (counting the leader) have arrived,
none carrying new information, and the fast quorum is not yet reached, the
leader arms the one-shot slow-path timer for `slowPathTimout = 2` logical
ticks when it is not yet set and leaves everything untouched when it is;
once armed, the first tick only counts down and makes no transition, and the
tick that reaches the timeout fires the timer, transitioning the instance to
`Accepted` and broadcasting `Accept`. -/
theorem slow_path_timer_behavior (p : epaxos) (inst : Instance)
    (hs : inst.state = InstanceState.preAccepted)
    (hd : inst.differentReplies = false)
    (hq : p.quorum (inst.preAcceptReplies + 1) = true)
    (hfq : p.fastQuorum (inst.preAcceptReplies + 1) = false) :
    slowPathTimout = 2 ∧
    (inst.slowPathTimer = Option.none →
      onEitherPreAcceptReply p inst =
        Option.some ({ inst with slowPathTimer := Option.some slowPathTimout }, [])) ∧
    (∀ k, inst.slowPathTimer = Option.some k →
      onEitherPreAcceptReply p inst = Option.some (inst, [])) ∧
    (inst.slowPathTimer = Option.some slowPathTimout →
      tickSlowPathTimer inst =
        Option.some ({ inst with slowPathTimer := Option.some 1 }, [])) ∧
    (inst.slowPathTimer = Option.some 1 →
      tickSlowPathTimer inst =
        Option.some
          ({ inst with slowPathTimer := Option.none, state := InstanceState.accepted },
            [Output.broadcast (Msg.accept inst.seq (depSlice inst))])) := by
  refine ⟨rfl, ?_, ?_, ?_, ?_⟩
  · intro ht
    simp [onEitherPreAcceptReply, hd, hfq, hq, fastPathAvailable, ht]
  · intro k ht
    simp [onEitherPreAcceptReply, hd, hfq, hq, fastPathAvailable, ht]
  · intro ht
    simp [tickSlowPathTimer, ht, slowPathTimout]
  · intro ht
    simp [tickSlowPathTimer, ht, transitionToAccept, acceptPayload, depSlice, hs]

/-- Witness for C6: `instSlow` (two replies counting the leader, slow quorum
of `pDemo` reached, fast quorum not) arms the timer for 2 ticks; the armed
instance survives the first tick unchanged apart from the countdown and
fires on the second, broadcasting `Accept`. -/
theorem slow_path_timer_behavior_witness :
    onEitherPreAcceptReply pDemo instSlow =
      Option.some ({ instSlow with slowPathTimer := Option.some slowPathTimout }, []) ∧
    tickSlowPathTimer instArmed =
      Option.some ({ instArmed with slowPathTimer := Option.some 1 }, []) ∧
    tickSlowPathTimer { instArmed with slowPathTimer := Option.some 1 } =
      Option.some
        ({ instArmed with slowPathTimer := Option.none, state := InstanceState.accepted },
          [Output.broadcast (Msg.accept instArmed.seq (depSlice instArmed))]) := by
  refine ⟨(slow_path_timer_behavior pDemo instSlow rfl rfl (by decide) (by decide)).2.1 rfl,
    (slow_path_timer_behavior pDemo instArmed rfl rfl (by decide) (by decide)).2.2.2.1 rfl, ?_⟩
  have h := (slow_path_timer_behavior pDemo { instArmed with slowPathTimer := Option.some 1 }
    rfl rfl (by decide) (by decide)).2.2.2.2 rfl
  exact h

/-- A step that does not change the state is legal. -/
lemma legalTransition_self (e : Event) (s s' : InstanceState) (h : s = s') :
    legalTransition e s s' :=
  Or.inl h

/-- The transition None to PreAccepted is legal. -/
lemma legalTransition_preAccept (e : Event) :
    legalTransition e InstanceState.none InstanceState.preAccepted :=
  Or.inr (Or.inl ⟨rfl, rfl⟩)

/-- The transition PreAccepted to Accepted is legal. -/
lemma legalTransition_toAccepted (e : Event) :
    legalTransition e InstanceState.preAccepted InstanceState.accepted :=
  Or.inr (Or.inr (Or.inl ⟨rfl, rfl⟩))

/-- A delivered Accept may move None or PreAccepted to Accepted. -/
lemma legalTransition_acceptMsg (m : Accept) (s : InstanceState)
    (hs : s = InstanceState.none ∨ s = InstanceState.preAccepted) :
    legalTransition (Event.accept m) s InstanceState.accepted :=
  Or.inr (Or.inr (Or.inr (Or.inl ⟨hs, rfl, m, rfl⟩)))

/-- The transitions PreAccepted or Accepted to Committed are legal. -/
lemma legalTransition_toCommitted (e : Event) (s : InstanceState)
    (hs : s = InstanceState.preAccepted ∨ s = InstanceState.accepted) :
    legalTransition e s InstanceState.committed :=
  Or.inr (Or.inr (Or.inr (Or.inr (Or.inl ⟨hs, rfl⟩))))

/-- A delivered Commit may move None, PreAccepted or Accepted to Committed. -/
lemma legalTransition_commitMsg (m : Commit) (s : InstanceState)
    (hs : s = InstanceState.none ∨ s = InstanceState.preAccepted ∨
      s = InstanceState.accepted) :
    legalTransition (Event.commit m) s InstanceState.committed :=
  Or.inr (Or.inr (Or.inr (Or.inr (Or.inr (Or.inl ⟨hs, rfl, m, rfl⟩)))))

/-- The transition Committed to Executed is legal. -/
lemma legalTransition_execute (e : Event) :
    legalTransition e InstanceState.committed InstanceState.executed :=
  Or.inr (Or.inr (Or.inr (Or.inr (Or.inr (Or.inr ⟨rfl, rfl⟩)))))

/-- A successful `updateInstanceState` never changes the instance's state. -/
lemma updateInstanceState_keeps_state (inst : Instance) (n : Nat) (l : List Dep)
    (inst0 : Instance) (c : Bool)
    (h : updateInstanceState inst n l = Option.some (inst0, c)) :
    inst0.state = inst.state := by
  simp only [updateInstanceState] at h
  split at h <;> split at h
  all_goals
    first
      | (simp only [Option.some.injEq, Prod.mk.injEq] at h
         obtain ⟨rfl, rfl⟩ := h
         rfl)
      | (rcases hg : goMapInsertAll inst.deps l with _ | m
         · rw [hg] at h
           exact absurd h (by simp)
         · rw [hg] at h
           simp only [Option.some.injEq, Prod.mk.injEq] at h
           obtain ⟨rfl, rfl⟩ := h
           rfl)

/-- Every successful step weakly increases the state rank and takes only a
transition the spec declares legal for its event. -/
lemma stepRank_mono (p : epaxos) (e : Event) (inst inst1 : Instance) (outs : List Output)
    (h : step p e inst = Option.some (inst1, outs)) :
    stateRank inst.state ≤ stateRank inst1.state ∧ legalTransition e inst.state inst1.state := by
  cases e with
  | preAccept m =>
      simp only [step, Option.some.injEq] at h
      by_cases hs : inst.state = InstanceState.none
      · simp only [onPreAccept] at h
        rw [if_pos hs] at h
        split at h <;>
          · rw [Prod.mk.injEq] at h
            obtain ⟨rfl, rfl⟩ := h
            refine ⟨by simp only [hs, stateRank]; omega, ?_⟩
            rw [hs]
            exact legalTransition_preAccept _
      · simp only [onPreAccept] at h
        rw [if_neg hs, Prod.mk.injEq] at h
        obtain ⟨rfl, rfl⟩ := h
        exact ⟨le_refl _, legalTransition_self _ _ _ rfl⟩
  | preAcceptOK =>
      simp only [step] at h
      by_cases hs : inst.state = InstanceState.preAccepted
      · simp only [onPreAcceptOK] at h
        rw [if_pos hs] at h
        have hs' : ({ inst with preAcceptReplies := inst.preAcceptReplies + 1 } : Instance).state
            = InstanceState.preAccepted := hs
        rcases onEitherPreAcceptReply_cases p _ hs' with hc | hc | hc | hc <;>
          · rw [hc, Option.some.injEq, Prod.mk.injEq] at h
            obtain ⟨rfl, rfl⟩ := h
            refine ⟨by simp only [hs, stateRank]; omega, ?_⟩
            first
              | exact legalTransition_self _ _ _ rfl
              | (rw [hs]
                 first
                   | exact legalTransition_toAccepted _
                   | exact legalTransition_toCommitted _ _ (Or.inl rfl))
      · simp only [onPreAcceptOK] at h
        rw [if_neg hs, Option.some.injEq, Prod.mk.injEq] at h
        obtain ⟨rfl, rfl⟩ := h
        exact ⟨le_refl _, legalTransition_self _ _ _ rfl⟩
  | preAcceptReply m =>
      simp only [step] at h
      by_cases hs : inst.state = InstanceState.preAccepted
      · simp only [onPreAcceptReply] at h
        rw [if_pos hs] at h
        rcases hu : updateInstanceState inst m.updatedSeqNum m.updatedDeps with _ | ⟨instU, c⟩
        · rw [hu] at h
          exact absurd h (by simp)
        · simp only [hu, Option.some_bind] at h
          have hkeep : instU.state = inst.state :=
            updateInstanceState_keeps_state inst m.updatedSeqNum m.updatedDeps instU c hu
          have hs' : ({ instU with
              differentReplies := instU.differentReplies || c
              preAcceptReplies := instU.preAcceptReplies + 1 } : Instance).state
              = InstanceState.preAccepted := by
            show instU.state = InstanceState.preAccepted
            rw [hkeep, hs]
          rcases onEitherPreAcceptReply_cases p _ hs' with hc | hc | hc | hc <;>
            · rw [hc, Option.some.injEq, Prod.mk.injEq] at h
              obtain ⟨rfl, rfl⟩ := h
              refine ⟨by simp only [hkeep, hs, stateRank]; omega, ?_⟩
              first
                | exact legalTransition_self _ _ _ (by rw [hs]; exact hs'.symm)
                | (rw [hs]
                   first
                     | exact legalTransition_toAccepted _
                     | exact legalTransition_toCommitted _ _ (Or.inl rfl))
      · simp only [onPreAcceptReply] at h
        rw [if_neg hs, Option.some.injEq, Prod.mk.injEq] at h
        obtain ⟨rfl, rfl⟩ := h
        exact ⟨le_refl _, legalTransition_self _ _ _ rfl⟩
  | accept m =>
      simp only [step] at h
      by_cases hs : inst.state = InstanceState.none ∨ inst.state = InstanceState.preAccepted
      · simp only [onAccept] at h
        rw [if_pos hs] at h
        rcases hu : updateInstanceState { inst with state := InstanceState.accepted }
            m.seq m.deps with _ | ⟨instU, c⟩
        · rw [hu] at h
          exact absurd h (by simp)
        · simp only [hu, Option.some_bind, Option.some.injEq, Prod.mk.injEq] at h
          obtain ⟨rfl, rfl⟩ := h
          have hsU : instU.state = InstanceState.accepted :=
            updateInstanceState_keeps_state _ m.seq m.deps instU c hu
          refine ⟨?_, ?_⟩
          · rcases hs with hs | hs <;>
              · simp only [hs, hsU, stateRank]
                omega
          · rw [hsU]
            exact legalTransition_acceptMsg m _ hs
      · simp only [onAccept] at h
        rw [if_neg hs, Option.some.injEq, Prod.mk.injEq] at h
        obtain ⟨rfl, rfl⟩ := h
        exact ⟨le_refl _, legalTransition_self _ _ _ rfl⟩
  | acceptOK =>
      simp only [step] at h
      by_cases hs : inst.state = InstanceState.accepted
      · simp only [onAcceptOK] at h
        rw [if_pos hs] at h
        split at h
        · simp only [transitionToCommit] at h
          rw [if_pos (Or.inr hs), Option.some.injEq, Prod.mk.injEq] at h
          obtain ⟨rfl, rfl⟩ := h
          refine ⟨by simp only [hs, stateRank]; omega, ?_⟩
          rw [hs]
          exact legalTransition_toCommitted _ _ (Or.inr rfl)
        · rw [Option.some.injEq, Prod.mk.injEq] at h
          obtain ⟨rfl, rfl⟩ := h
          exact ⟨le_refl _, legalTransition_self _ _ _ rfl⟩
      · simp only [onAcceptOK] at h
        rw [if_neg hs, Option.some.injEq, Prod.mk.injEq] at h
        obtain ⟨rfl, rfl⟩ := h
        exact ⟨le_refl _, legalTransition_self _ _ _ rfl⟩
  | commit m =>
      simp only [step] at h
      by_cases hs : inst.state = InstanceState.none ∨ inst.state = InstanceState.preAccepted ∨
          inst.state = InstanceState.accepted
      · simp only [onCommit] at h
        rw [if_pos hs] at h
        rcases hu : updateInstanceState
            { inst with state := InstanceState.committed, cmd := m.cmd }
            m.seq m.deps with _ | ⟨instU, c⟩
        · rw [hu] at h
          exact absurd h (by simp)
        · simp only [hu, Option.some_bind, Option.some.injEq, Prod.mk.injEq] at h
          obtain ⟨rfl, rfl⟩ := h
          have hsU : instU.state = InstanceState.committed :=
            updateInstanceState_keeps_state _ m.seq m.deps instU c hu
          refine ⟨?_, ?_⟩
          · rcases hs with hs | hs | hs <;>
              · simp only [hs, hsU, stateRank]
                omega
          · rw [hsU]
            exact legalTransition_commitMsg m _ hs
      · simp only [onCommit] at h
        rw [if_neg hs, Option.some.injEq, Prod.mk.injEq] at h
        obtain ⟨rfl, rfl⟩ := h
        exact ⟨le_refl _, legalTransition_self _ _ _ rfl⟩
  | tick =>
      simp only [step, tickSlowPathTimer] at h
      rcases ht : inst.slowPathTimer with _ | k
      · simp only [ht, Option.some.injEq, Prod.mk.injEq] at h
        obtain ⟨rfl, rfl⟩ := h
        exact ⟨le_refl _, legalTransition_self _ _ _ rfl⟩
      · simp only [ht] at h
        split at h
        · simp only [transitionToAccept] at h
          split at h
          · rename_i hcond
            rw [Option.some.injEq, Prod.mk.injEq] at h
            obtain ⟨rfl, rfl⟩ := h
            have hs : inst.state = InstanceState.preAccepted := hcond
            refine ⟨by simp only [hs, stateRank]; omega, ?_⟩
            rw [hs]
            exact legalTransition_toAccepted _
          · exact absurd h (by simp)
        · rw [Option.some.injEq, Prod.mk.injEq] at h
          obtain ⟨rfl, rfl⟩ := h
          exact ⟨le_refl _, legalTransition_self _ _ _ rfl⟩
  | execute =>
      simp only [step, executeInst, Option.some.injEq] at h
      by_cases hs : inst.state = InstanceState.committed
      · rw [if_pos hs, Prod.mk.injEq] at h
        obtain ⟨rfl, rfl⟩ := h
        refine ⟨by simp only [hs, stateRank]; omega, ?_⟩
        rw [hs]
        exact legalTransition_execute _
      · rw [if_neg hs, Prod.mk.injEq] at h
        obtain ⟨rfl, rfl⟩ := h
        exact ⟨le_refl _, legalTransition_self _ _ _ rfl⟩

/-- C3: over every delivered event the state rank never decreases, every
transition taken is one of the legal ones (`None` to `PreAccepted`;
`PreAccepted` to `Accepted`; `None` or `PreAccepted` to `Accepted` only via a
delivered Accept; `PreAccepted` or `Accepted` to `Committed`; `None`,
`PreAccepted` or `Accepted` to `Committed` only via a delivered Commit;
`Committed` to `Executed`), and hence over every event sequence the state is
monotone. -/
theorem state_monotone_legal (p : epaxos) :
    (∀ e inst inst1 outs, step p e inst = Option.some (inst1, outs) →
      stateRank inst.state ≤ stateRank inst1.state ∧
        legalTransition e inst.state inst1.state) ∧
    (∀ es inst inst1, run p es inst = Option.some inst1 →
      stateRank inst.state ≤ stateRank inst1.state) := by
  refine ⟨fun e inst inst1 outs h => stepRank_mono p e inst inst1 outs h, ?_⟩
  intro es
  induction es with
  | nil =>
      intro inst inst1 h
      simp only [run, Option.some.injEq] at h
      subst h
      exact le_refl _
  | cons e es ih =>
      intro inst inst1 h
      simp only [run] at h
      rcases hst : step p e inst with _ | ⟨inst2, outs⟩
      · rw [hst] at h
        exact absurd h (by simp)
      · rw [hst, Option.some_bind] at h
        exact le_trans (stepRank_mono p e inst inst2 outs hst).1 (ih inst2 inst1 h)

/-- Witness for C3: the fast-path step taken from `instLeader` raises the
rank from PreAccepted to Committed and is a legal transition. -/
theorem state_monotone_legal_witness :
    stateRank instLeader.state ≤ stateRank instFastDone.state ∧
      legalTransition Event.preAcceptOK instLeader.state instFastDone.state :=
  (state_monotone_legal pDemo).1 Event.preAcceptOK instLeader instFastDone outsFastDone
    (by rfl)

/-- C7: on the command leader the slow-path timer only ever fires while the
instance is still `PreAccepted`, so the `assertState` inside
`transitionToAccept` never panics and no firing ever reaches an instance
outside `PreAccepted`.  Formally: the invariant "timer set implies state
PreAccepted" holds at any firing, is preserved by every leader-side event
(`PreAcceptOK`, `PreAcceptReply`, `AcceptOK`, tick) along with the
allocatedness of the deps map, and under it no leader-side event panics. -/
theorem slow_path_timer_fire_safety (p : epaxos) (e : Event) (inst : Instance) (s : Finset Dep)
    (hL : isLeaderEvent e)
    (hInv : inst.slowPathTimer.isSome = true → inst.state = InstanceState.preAccepted)
    (hD : inst.deps = Option.some s) :
    (e = Event.tick → ∀ k, inst.slowPathTimer = Option.some k →
      inst.state = InstanceState.preAccepted) ∧
    ∃ inst1 outs, step p e inst = Option.some (inst1, outs) ∧
      (inst1.slowPathTimer.isSome = true → inst1.state = InstanceState.preAccepted) ∧
      ∃ s1, inst1.deps = Option.some s1 := by
  refine ⟨fun _ k hk => hInv (by rw [hk]; rfl), ?_⟩
  cases e with
  | preAccept m => exact hL.elim
  | accept m => exact hL.elim
  | commit m => exact hL.elim
  | execute => exact hL.elim
  | preAcceptOK =>
      by_cases hs : inst.state = InstanceState.preAccepted
      · have hs' : ({ inst with preAcceptReplies := inst.preAcceptReplies + 1 } : Instance).state
            = InstanceState.preAccepted := hs
        have hstep : step p Event.preAcceptOK inst =
            onEitherPreAcceptReply p
              { inst with preAcceptReplies := inst.preAcceptReplies + 1 } := by
          simp only [step, onPreAcceptOK]
          rw [if_pos hs]
        rcases onEitherPreAcceptReply_cases p _ hs' with hc | hc | hc | hc
        · exact ⟨_, _, hstep.trans hc, fun _ => hs, ⟨s, hD⟩⟩
        · exact ⟨_, _, hstep.trans hc, fun _ => hs, ⟨s, hD⟩⟩
        · exact ⟨_, _, hstep.trans hc, fun hh => absurd hh (by simp), ⟨s, hD⟩⟩
        · exact ⟨_, _, hstep.trans hc, fun hh => absurd hh (by simp), ⟨s, hD⟩⟩
      · have hstep : step p Event.preAcceptOK inst = Option.some (inst, []) := by
          simp only [step, onPreAcceptOK]
          rw [if_neg hs]
        exact ⟨_, _, hstep, hInv, ⟨s, hD⟩⟩
  | preAcceptReply m =>
      by_cases hs : inst.state = InstanceState.preAccepted
      · have hu := updateInstanceState_char inst s m.updatedSeqNum m.updatedDeps hD
        have hstep : step p (Event.preAcceptReply m) inst =
            onEitherPreAcceptReply p
              { inst with
                  seq := m.updatedSeqNum
                  deps := Option.some
                    (if m.updatedDeps.length = s.card then s else s ∪ m.updatedDeps.toFinset)
                  differentReplies := inst.differentReplies ||
                    (decide (m.updatedSeqNum ≠ inst.seq) ||
                      decide (m.updatedDeps.length ≠ s.card))
                  preAcceptReplies := inst.preAcceptReplies + 1 } := by
          simp only [step, onPreAcceptReply]
          rw [if_pos hs, hu, Option.some_bind]
        have hs2 : ({ inst with
            seq := m.updatedSeqNum
            deps := Option.some
              (if m.updatedDeps.length = s.card then s else s ∪ m.updatedDeps.toFinset)
            differentReplies := inst.differentReplies ||
              (decide (m.updatedSeqNum ≠ inst.seq) ||
                decide (m.updatedDeps.length ≠ s.card))
            preAcceptReplies := inst.preAcceptReplies + 1 } : Instance).state
            = InstanceState.preAccepted := hs
        rcases onEitherPreAcceptReply_cases p _ hs2 with hc | hc | hc | hc
        · exact ⟨_, _, hstep.trans hc, fun _ => hs, ⟨_, rfl⟩⟩
        · exact ⟨_, _, hstep.trans hc, fun _ => hs, ⟨_, rfl⟩⟩
        · exact ⟨_, _, hstep.trans hc, fun hh => absurd hh (by simp), ⟨_, rfl⟩⟩
        · exact ⟨_, _, hstep.trans hc, fun hh => absurd hh (by simp), ⟨_, rfl⟩⟩
      · have hstep : step p (Event.preAcceptReply m) inst = Option.some (inst, []) := by
          simp only [step, onPreAcceptReply]
          rw [if_neg hs]
        exact ⟨_, _, hstep, hInv, ⟨s, hD⟩⟩
  | acceptOK =>
      by_cases hs : inst.state = InstanceState.accepted
      · have hnp : ¬ inst.state = InstanceState.preAccepted := by
          rw [hs]
          decide
        cases hq : p.quorum (inst.acceptReplies + 1 + 1) with
        | true =>
            have hstep : step p Event.acceptOK inst =
                Option.some
                  ({ inst with
                      acceptReplies := inst.acceptReplies + 1
                      state := InstanceState.committed },
                    [Output.broadcast (Msg.commit inst.cmd inst.seq (depSlice inst)),
                      Output.execReady]) := by
              simp only [step, onAcceptOK]
              rw [if_pos hs]
              have hq' : p.quorum
                  (({ inst with acceptReplies := inst.acceptReplies + 1 } :
                    Instance).acceptReplies + 1) = true := hq
              rw [hq', if_pos rfl]
              simp only [transitionToCommit]
              rw [if_pos (Or.inr
                (show ({ inst with acceptReplies := inst.acceptReplies + 1 } :
                  Instance).state = InstanceState.accepted from hs))]
              rfl
            exact ⟨_, _, hstep, fun hh => absurd (hInv hh) hnp, ⟨s, hD⟩⟩
        | false =>
            have hstep : step p Event.acceptOK inst =
                Option.some ({ inst with acceptReplies := inst.acceptReplies + 1 }, []) := by
              simp only [step, onAcceptOK]
              rw [if_pos hs]
              have hq' : p.quorum
                  (({ inst with acceptReplies := inst.acceptReplies + 1 } :
                    Instance).acceptReplies + 1) = false := hq
              rw [hq', if_neg (by decide)]
            exact ⟨_, _, hstep, fun hh => hInv hh, ⟨s, hD⟩⟩
      · have hstep : step p Event.acceptOK inst = Option.some (inst, []) := by
          simp only [step, onAcceptOK]
          rw [if_neg hs]
        exact ⟨_, _, hstep, hInv, ⟨s, hD⟩⟩
  | tick =>
      rcases ht : inst.slowPathTimer with _ | k
      · have hstep : step p Event.tick inst = Option.some (inst, []) := by
          simp only [step, tickSlowPathTimer, ht]
        exact ⟨_, _, hstep, hInv, ⟨s, hD⟩⟩
      · have hs : inst.state = InstanceState.preAccepted := hInv (by rw [ht]; rfl)
        by_cases hk : k ≤ 1
        · have hstep : step p Event.tick inst =
              Option.some
                ({ inst with
                    slowPathTimer := Option.none
                    state := InstanceState.accepted },
                  [Output.broadcast (Msg.accept inst.seq (depSlice inst))]) := by
            simp only [step, tickSlowPathTimer, ht]
            rw [if_pos hk]
            simp only [transitionToAccept]
            rw [if_pos
              (show ({ inst with slowPathTimer := Option.none } : Instance).state
                = InstanceState.preAccepted from hs)]
            rfl
          exact ⟨_, _, hstep, fun hh => absurd hh (by simp), ⟨s, hD⟩⟩
        · have hstep : step p Event.tick inst =
              Option.some ({ inst with slowPathTimer := Option.some (k - 1) }, []) := by
            simp only [step, tickSlowPathTimer, ht]
            rw [if_neg hk]
          exact ⟨_, _, hstep, fun _ => hs, ⟨s, hD⟩⟩

/-- Witness for C7: a tick delivered to the armed leader instance
`instArmed` neither panics nor breaks the invariant. -/
theorem slow_path_timer_fire_safety_witness :
    (Event.tick = Event.tick → ∀ k, instArmed.slowPathTimer = Option.some k →
      instArmed.state = InstanceState.preAccepted) ∧
    ∃ inst1 outs, step pDemo Event.tick instArmed = Option.some (inst1, outs) ∧
      (inst1.slowPathTimer.isSome = true → inst1.state = InstanceState.preAccepted) ∧
      ∃ s1, inst1.deps = Option.some s1 :=
  slow_path_timer_fire_safety pDemo Event.tick instArmed depsDemo True.intro
    (fun _ => rfl) rfl

end EPaxos
